import Mathlib

/-!
Verification of the actor message type inference core of `tactor`.

The definitions below are a shallow embedding of the Python sources:
  * `src/ts/ts.py` — the type model (`JSType`), the union/merge engine
    (`tryUnionWith`, `unionWith`, `UnionType.absorb*`, `objectAbsorb`)
    and the JSON renderer (`jsonStr`);
  * `src/ts/actor_decls.py` — `ActorDecls.unify1` and the `MessageTypes`
    invariant;
  * `src/ts/ts_parse.py` — the semantic action of `p_MessageType` for the
    arrow form `(_: T1) => T2`;
  * `src/ts/overrides.py` — the list of test-only actors.

Python exceptions (failed `assert`s and explicit `raise`s) are modelled with
`Except String`; the `None` sentinel returned by `tryUnionWith` for
"no merge possible" is the inner `Option`.  In-place mutation of type values
in the Python code is modelled by returning the new value.
-/

/-- A property name is a string or an integer (`JSPropertyType.__init__`
asserts `isinstance(n, str) or isinstance(n, int)`). -/
abbrev PropName := Sum String Int

/-- The subset-of-TypeScript type model of `src/ts/ts.py`: `AnyType`,
`NeverType`, `PrimitiveType`, `ObjectType` (a list of `JSPropertyType`
triples of name, type and optional flag), `ArrayType` and `UnionType`. -/
inductive JSType where
  | any
  | never
  | prim (name : String)
  | obj (props : List (PropName × JSType × Bool))
  | array (elem : JSType)
  | union (types : List JSType)

/-- A `JSPropertyType`: name, type, optional flag. -/
abbrev JSProp := PropName × JSType × Bool

namespace JSType

/-- Whether a value is a `UnionType` (`isinstance(t, UnionType)`). -/
def isUnion : JSType → Bool
  | .union _ => true
  | _ => false

end JSType

/-- Code-point comparison of strings as lists of characters (Python `<`
on strings). -/
def charsLtB : List Char → List Char → Bool
  | [], [] => false
  | [], _ :: _ => true
  | _ :: _, [] => false
  | a :: as, b :: bs => if a < b then true else if b < a then false else charsLtB as bs

/-- Python `<` on strings. -/
def strLtB (a b : String) : Bool := charsLtB a.toList b.toList

/-- The name ordering of `JSPropertyType.__lt__`: strings compare with
string order, integers with integer order, and every string name sorts
before every integer name. -/
def propNameLtB : PropName → PropName → Bool
  | .inl s1, .inl s2 => strLtB s1 s2
  | .inl _, .inr _ => true
  | .inr _, .inl _ => false
  | .inr i1, .inr i2 => decide (i1 < i2)

/-- `JSPropertyType.__lt__` compares only the names. -/
def propLtB (p q : JSProp) : Bool := propNameLtB p.1 q.1

mutual

/-- Reimplementation of `tryUnionWith` (`src/ts/ts.py` lines 278-313).
The cases are ordered exactly as the Python `isinstance` checks: first the
"wildcard" cases on `t2` (`Any`, `Never`, `Union`), then the cases on `t1`.
Returns `.ok none` where Python returns the sentinel `None`
("no merge possible") and `.error` where a Python `assert` would raise. -/
def tryUnionWith (t1 t2 : JSType) : Except String (Option JSType) :=
  match t1, t2 with
  -- Check a few "wildcard" cases on t2.
  | _, .any => .ok (some .any)
  | t1, .never => .ok (some t1)
  | .union ts1, .union ts2 =>
    -- t2.absorb(t1) with t1 a union: t2.absorbUnion(t1); return t2
    match absorbUnionGo ts2 ts1 with
    | .error e => .error e
    | .ok (ts2New, rem) => .ok (some (.union (ts2New ++ rem)))
  | t1, .union ts2 =>
    -- t2.absorb(t1) with t1 not a union: t2.absorbNonUnion(t1); return t2
    match absorbNonUnion ts2 t1 with
    | .error e => .error e
    | .ok ts2New => .ok (some (.union ts2New))
  -- Now deal with the remaining cases for t1.
  | .any, _ => .ok (some .any)
  | .never, t2 => .ok (some t2)
  | .prim n1, .prim n2 => if n1 = n2 then .ok (some (.prim n1)) else .ok none
  | .prim _, _ => .ok none
  | .obj l1, .obj l2 =>
    match objectAbsorb l1 l2 with
    | .error e => .error e
    | .ok l => .ok (some (.obj l))
  | .obj _, _ => .ok none
  | .array e1, .array e2 =>
    -- t1.elementType = unionWith(t1.elementType, t2.elementType)
    match unionWith e1 e2 with
    | .error e => .error e
    | .ok e3 => .ok (some (.array e3))
  | .array _, _ => .ok none
  | .union ts1, t2 =>
    -- t2 is not a union here; t1.absorbNonUnion(t2); return t1
    match absorbNonUnion ts1 t2 with
    | .error e => .error e
    | .ok ts1New => .ok (some (.union ts1New))
termination_by 2 * (sizeOf t1 + sizeOf t2)
decreasing_by
  all_goals simp_wf
  all_goals omega

/-- Reimplementation of `unionWith` (`src/ts/ts.py` lines 316-320). -/
def unionWith (t1 t2 : JSType) : Except String JSType :=
  match tryUnionWith t1 t2 with
  | .error e => .error e
  | .ok (some t3) => .ok t3
  | .ok none => .ok (.union [t1, t2])
termination_by 2 * (sizeOf t1 + sizeOf t2) + 1
decreasing_by
  all_goals simp_wf
  all_goals omega

/-- The loop of `UnionType.absorbNonUnion` (`src/ts/ts.py` lines 266-274).
Returns whether some member merged with `t2`.  The merged value is
discarded, exactly like the Python loop, whose `t = t2New` rebinds the
loop variable without updating `self.types`. -/
def absorbNonUnionGo (ts : List JSType) (t2 : JSType) : Except String Bool :=
  match ts with
  | [] => .ok false
  | t :: rest =>
    if t.isUnion then .error "AssertionError: union member of a union" else
    match tryUnionWith t t2 with
    | .error e => .error e
    | .ok (some _) => .ok true
    | .ok none => absorbNonUnionGo rest t2
termination_by 2 * (sizeOf ts + sizeOf t2)
decreasing_by
  all_goals simp_wf
  all_goals omega

/-- `UnionType.absorbNonUnion` on the member list: if some member merges
with `t2` the list is returned unchanged (see `absorbNonUnionGo`),
otherwise `t2` is appended. -/
def absorbNonUnion (ts : List JSType) (t2 : JSType) : Except String (List JSType) :=
  if t2.isUnion then .error "AssertionError: absorbNonUnion of a union" else
  match absorbNonUnionGo ts t2 with
  | .error e => .error e
  | .ok true => .ok ts
  | .ok false => .ok (ts ++ [t2])
termination_by 2 * (sizeOf ts + sizeOf t2) + 1
decreasing_by
  all_goals simp_wf
  all_goals omega

/-- The inner loop of `UnionType.absorbUnion` (`src/ts/ts.py` lines
248-259): scan the not-yet-consumed incoming members for the first one
that merges with `t1`.  Python marks the consumed member by overwriting
it with `None`; we return the list with the consumed member removed,
which preserves both the scan order and the final append order. -/
def absorbUnionScan (t1 : JSType) (os : List JSType) :
    Except String (Option (JSType × {os2 : List JSType // sizeOf os2 < sizeOf os})) :=
  match os with
  | [] => .ok none
  | t2 :: rest =>
    if t2.isUnion then .error "AssertionError: union member of a union" else
    match tryUnionWith t1 t2 with
    | .error e => .error e
    | .ok (some t1New) => .ok (some (t1New, ⟨rest, by simp⟩))
    | .ok none =>
      match absorbUnionScan t1 rest with
      | .error e => .error e
      | .ok none => .ok none
      | .ok (some (t1New, ⟨os2, h⟩)) =>
        .ok (some (t1New, ⟨t2 :: os2, by simp; omega⟩))
termination_by 2 * (sizeOf t1 + sizeOf os)
decreasing_by
  all_goals simp_wf
  all_goals omega

/-- The outer loop of `UnionType.absorbUnion` (`src/ts/ts.py` lines
244-264): each member of the union being absorbed into is replaced by
its merge with the first compatible incoming member, which is consumed.
Returns the updated member list and the unconsumed incoming members. -/
def absorbUnionGo (ts os : List JSType) : Except String (List JSType × List JSType) :=
  match ts with
  | [] => .ok ([], os)
  | t1 :: rest =>
    if t1.isUnion then .error "AssertionError: union member of a union" else
    match absorbUnionScan t1 os with
    | .error e => .error e
    | .ok none =>
      match absorbUnionGo rest os with
      | .error e => .error e
      | .ok (ts2, os2) => .ok (t1 :: ts2, os2)
    | .ok (some (t1New, os1)) =>
      match absorbUnionGo rest os1.val with
      | .error e => .error e
      | .ok (ts2, os2) => .ok (t1New :: ts2, os2)
termination_by 2 * (sizeOf ts + sizeOf os) + 1
decreasing_by
  all_goals simp_wf
  all_goals try omega
  all_goals (rename_i os1 _; have := os1.2; omega)

/-- Reimplementation of `objectAbsorb` (`src/ts/ts.py` lines 322-356) on
the two property lists, assumed pre-sorted: a merge-join that marks
one-sided properties optional and merges the types of shared ones. -/
def objectAbsorb (l1 l2 : List JSProp) : Except String (List JSProp) :=
  match l1, l2 with
  | [], l2 =>
    -- Move over any remaining fields from the other object type.
    .ok (l2.map (fun q => (q.1, q.2.1, true)))
  | (n1, ty1, o1) :: r1, [] =>
    -- p is smaller, so move it over (no fields remain on the other side).
    match objectAbsorb r1 [] with
    | .error e => .error e
    | .ok rest => .ok ((n1, ty1, true) :: rest)
  | (n1, ty1, o1) :: r1, (n2, ty2, o2) :: r2 =>
    if propNameLtB n2 n1 then
      -- Move over any smaller fields from the other object type.
      match objectAbsorb ((n1, ty1, o1) :: r1) r2 with
      | .error e => .error e
      | .ok rest => .ok ((n2, ty2, true) :: rest)
    else if n1 = n2 then
      -- The leading fields have the same name, so merge them.
      match unionWith ty1 ty2 with
      | .error e => .error e
      | .ok ty =>
        match objectAbsorb r1 r2 with
        | .error e => .error e
        | .ok rest => .ok ((n1, ty, o1 || o2) :: rest)
    else
      -- p is smaller, so move it over.
      match objectAbsorb r1 ((n2, ty2, o2) :: r2) with
      | .error e => .error e
      | .ok rest => .ok ((n1, ty1, true) :: rest)
termination_by 2 * (sizeOf l1 + sizeOf l2)
decreasing_by
  all_goals simp_wf
  all_goals omega

end

/-! ## `ActorDecls.unify1` (`src/ts/actor_decls.py` lines 198-259) -/

/-- The fold in `unify1` lines 227-234: combine a list of observed types
with repeated `unionWith` (Python keeps the first type as the accumulator). -/
def combineFold (acc : JSType) : List JSType → Except String JSType
  | [] => .ok acc
  | t :: ts =>
    match unionWith acc t with
    | .error e => .error e
    | .ok acc2 => combineFold acc2 ts

/-- Combine a non-empty list of observed types.  A single observation is
taken as-is (`unify1` line 215-219); several are folded with `unionWith`.
The empty case cannot be reached from `fillSlots`. -/
def combineTypes : List JSType → Except String JSType
  | [] => .error "AssertionError: tCombined is not None"
  | t :: ts => combineFold t ts

/-- The slot-filling loop of `unify1` (`src/ts/actor_decls.py` lines
199-238): one slot per kind; an empty observation list leaves the slot
empty (`None`) unless it is the QueryReject slot (kind 3) and a
QueryResolve type was seen (kind 2 non-empty), in which case the slot
defaults to `Any`. -/
def fillSlots (kindTypes : List (List JSType)) (kind : Nat) (haveQueryResolve : Bool) :
    Except String (List (Option JSType)) :=
  match kindTypes with
  | [] => .ok []
  | [] :: rest =>
    -- If no reject type was specified, but a resolve type
    -- was, allow any type for the reject.
    let slot : Option JSType := if kind == 3 && haveQueryResolve then some .any else none
    match fillSlots rest (kind + 1) haveQueryResolve with
    | .error e => .error e
    | .ok slots => .ok (slot :: slots)
  | (t :: ts) :: rest =>
    let haveQR2 := kind == 2 || haveQueryResolve
    match combineTypes (t :: ts) with
    | .error e => .error e
    | .ok ty =>
      match fillSlots rest (kind + 1) haveQR2 with
      | .error e => .error e
      | .ok slots => .ok (some ty :: slots)

/-- `newTypes = newTypes[: lastNonNone + 1]` (`unify1` line 239): Python
tracks the index of the last slot that received a type and cuts there,
which removes exactly the trailing `None` slots. -/
def trimTrailingNones : List (Option JSType) → List (Option JSType)
  | [] => []
  | o :: rest =>
    let r := trimTrailingNones rest
    if r.isEmpty then (if o.isSome then [o] else []) else o :: r

/-- The constructor checks of `MessageTypes.__init__` (`src/ts/actor_decls.py`
lines 353-362): between one and two slots, a single slot is set, and of
two slots at least one is set. -/
def messageTypesOk : List (Option JSType) → Bool
  | [o] => o.isSome
  | [o1, o2] => o1.isSome || o2.isSome
  | _ => false

/-- Reimplementation of `ActorDecls.unify1` (`src/ts/actor_decls.py` lines
198-259), without the logging side channel (printing only).  Returns the
final slot list handed to `MessageTypes`. -/
def unify1 (a m : String) (kindTypes : List (List JSType)) :
    Except String (List (Option JSType)) :=
  match fillSlots kindTypes 0 false with
  | .error e => .error e
  | .ok slots =>
    let newTypes := trimTrailingNones slots
    if newTypes.length > 4 then .error "AssertionError: len(newTypes) <= 4"
    else match newTypes with
    | [] => .error ("Message " ++ m ++ " of actor " ++ a ++ " has no types.")
    | [o] => .ok [o]
    | o0 :: restTypes =>
      if o0.isSome then
        .error ("Message " ++ m ++ " of actor " ++ a ++ " has both message and query types.")
      else if newTypes.length == 4 && (newTypes.getD 2 none).isNone then
        -- XXX Not sure what we should do for this.
        .error ("Message " ++ m ++ " of actor " ++ a
          ++ " has query reject, but not query resolve type.")
      else
        -- newTypes = newTypes[1:3]; pad a lone query slot with None.
        let sliced := restTypes.take 2
        .ok (if sliced.length == 1 then sliced ++ [none] else sliced)

/-- The test-only actors of `src/ts/overrides.py` lines 163-174. -/
def testActorNames : List String :=
  ["AppTestDelegate", "BrowserTestUtils", "DocShellHelpers", "FissionTestHelper",
   "ForceRefresh", "ReftestFission", "SpecialPowers", "StartupContentSubframe",
   "TestProcessActor", "TestWindow"]

/-- Modelled from the spec: the revision of `ActorDecls.unify1` that treats
the reject-without-resolve case specially for the test-only actor
allow-list is not part of the provided sources (the `src/ts/actor_decls.py`
snapshot raises unconditionally); per the spec, for an actor on the
allow-list of `src/ts/overrides.py` the missing QueryResolve slot is
synthesized as `Never` instead of raising.  All other behavior follows
`unify1`. -/
def unify1T (a m : String) (kindTypes : List (List JSType)) :
    Except String (List (Option JSType)) :=
  match fillSlots kindTypes 0 false with
  | .error e => .error e
  | .ok slots =>
    let newTypes := trimTrailingNones slots
    if newTypes.length > 4 then .error "AssertionError: len(newTypes) <= 4"
    else match newTypes with
    | [] => .error ("Message " ++ m ++ " of actor " ++ a ++ " has no types.")
    | [o] => .ok [o]
    | o0 :: restTypes =>
      if o0.isSome then
        .error ("Message " ++ m ++ " of actor " ++ a ++ " has both message and query types.")
      else if newTypes.length == 4 && (newTypes.getD 2 none).isNone then
        if testActorNames.contains a then
          -- Synthesize the missing resolve type as `never` for test actors.
          let patched := newTypes.set 2 (some .never)
          let sliced := (patched.drop 1).take 2
          .ok (if sliced.length == 1 then sliced ++ [none] else sliced)
        else
          .error ("Message " ++ m ++ " of actor " ++ a
            ++ " has query reject, but not query resolve type.")
      else
        let sliced := restTypes.take 2
        .ok (if sliced.length == 1 then sliced ++ [none] else sliced)

/-! ## The arrow form of `Parser.p_MessageType` (`src/ts/ts_parse.py` lines 364-399) -/

/-- `NeverType() == t`: Python class equality, true exactly for `NeverType`. -/
def isNeverB : JSType → Bool
  | .never => true
  | _ => false

/-- The semantic action of `p_MessageType` for `(_: T1) => T2`
(`src/ts/ts_parse.py` lines 371-399): both sides `never` is an error;
`T1 = never` declares a QueryResolve of `T2`; `T2 = never` declares a
Query of `T1`; otherwise both Query and QueryResolve are declared. -/
def messageTypeArrow (t1 t2 : JSType) : Except String (List (Option JSType)) :=
  if isNeverB t1 then
    if isNeverB t2 then
      -- (_: never) => never;
      .error ("Message type must have a non-\"never\" type "
        ++ "to either the left or right of the arrow")
    else
      -- (_: never) => T: query resolve; QueryReject cannot be specified.
      .ok [none, some t2]
  else if isNeverB t2 then
    -- (_: T) => never: query
    .ok [some t1, none]
  else
    -- (_: T1) => T2: query and query resolve
    .ok [some t1, some t2]

/-! ## Renderers (`src/ts/ts.py` `jsonStr` / `__str__`) -/

/-- `primitiveTypes` (`src/ts/ts.py` lines 60-68). -/
def primitiveTypes : List String :=
  ["undefined", "string", "null", "boolean", "number", "nsIPrincipal", "BrowsingContext"]

/-- A character of `identifierRe` = `(?!\d)[\w$]+` (ASCII word characters
and `$`). -/
def isIdentChar (c : Char) : Bool :=
  c.isAlpha || c.isDigit || c == '_' || c == '$'

/-- `identifierRe.fullmatch(name)`: non-empty, all identifier characters,
not starting with a digit. -/
def isIdentifierName (s : String) : Bool :=
  match s.toList with
  | [] => false
  | c :: _ => !c.isDigit && s.toList.all isIdentChar

/-- `name.replace('"', '\\"')` of `jsonNameStr`, character by character. -/
def escapeQuotes : List Char → List Char
  | [] => []
  | c :: cs => if c == '"' then '\\' :: '"' :: escapeQuotes cs else c :: escapeQuotes cs

/-- Python `sep.join(l)`. -/
def joinSep (sep : String) : List String → String
  | [] => ""
  | [s] => s
  | s :: rest => s ++ sep ++ joinSep sep rest

/-- `JSPropertyType.jsonNameStr`: integer names unquoted, string names
quoted with `"` escaped. -/
def jsonNameStr : PropName → String
  | .inr i => toString i
  | .inl s => "\"" ++ String.mk (escapeQuotes s.toList) ++ "\""

/-- `JSPropertyType.nameStr`: integer names unquoted, identifier string
names bare, other string names quoted. -/
def nameStr : PropName → String
  | .inr i => toString i
  | .inl s => if isIdentifierName s then s else jsonNameStr (.inl s)

mutual

/-- `jsonStr` (`src/ts/ts.py`): the canonical JSON rendering.  Union
members are rendered in stored order as right-growing `["union", s, t]`
pairs (`UnionType.jsonStr`, lines 222-228).  An empty union is
unreachable (`UnionType.__init__` asserts at least two members). -/
def jsonStr : JSType → String
  | .any => "\"any\""
  | .never => "\"never\""
  | .prim n => "\"" ++ n ++ "\""
  | .obj props =>
    if props.isEmpty then "[\"object\"]"
    else "[\"object\", " ++ joinSep ", " (jsonPropList props) ++ "]"
  | .array e => "[\"array\", " ++ jsonStr e ++ "]"
  | .union ts => jsonUnionList ts
termination_by t => sizeOf t
decreasing_by
  all_goals simp_wf
  all_goals omega

/-- `ObjectType.jsonStr`'s per-property strings (lines 167-170). -/
def jsonPropList : List JSProp → List String
  | [] => []
  | (n, ty, o) :: rest =>
    ("[" ++ jsonNameStr n ++ ", " ++ jsonStr ty ++ (if o then ", true" else "") ++ "]")
      :: jsonPropList rest
termination_by l => sizeOf l
decreasing_by
  all_goals simp_wf
  all_goals omega

/-- The fold of `UnionType.jsonStr` (lines 225-227). -/
def jsonUnionFold (s : String) : List JSType → String
  | [] => s
  | t :: rest => jsonUnionFold ("[\"union\", " ++ s ++ ", " ++ jsonStr t ++ "]") rest
termination_by l => sizeOf l
decreasing_by
  all_goals simp_wf
  all_goals omega

/-- `UnionType.jsonStr` over the member list; the empty case is
unreachable (`UnionType.__init__` asserts at least two members). -/
def jsonUnionList : List JSType → String
  | [] => ""
  | t :: rest => jsonUnionFold (jsonStr t) rest
termination_by l => sizeOf l
decreasing_by
  all_goals simp_wf
  all_goals omega

end

/-- Stable insertion of a string into a sorted list (Python `sorted`). -/
def insertStr (x : String) : List String → List String
  | [] => [x]
  | y :: ys => if strLtB x y then x :: y :: ys else y :: insertStr x ys

/-- Stable ascending string sort (Python `sorted`). -/
def sortStrs : List String → List String
  | [] => []
  | x :: xs => insertStr x (sortStrs xs)

mutual

/-- The canonical text rendering (`__str__` of `src/ts/ts.py`), except for
union member ordering, which is modelled from the spec: "Canonical text
rendering sorts union members" — the sorting revision of
`UnionType.__str__` is not part of the provided sources (the
`src/ts/ts.py` snapshot joins members in stored order), but the newest
test file `src/ts/test_jsat.py` asserts the sorted rendering.  Members
are rendered and sorted as strings, as Python `sorted` over `str(t)`. -/
def toStr : JSType → String
  | .any => "any"
  | .never => "never"
  | .prim n => n
  | .obj props => "\x7b" ++ joinSep "; " (toStrPropList props) ++ "\x7d"
  | .array e => "Array<" ++ toStr e ++ ">"
  | .union ts => joinSep " | " (sortStrs (toStrList ts))
termination_by t => sizeOf t
decreasing_by
  all_goals simp_wf
  all_goals omega

/-- `ObjectType.__str__`'s per-property strings (lines 157-162). -/
def toStrPropList : List JSProp → List String
  | [] => []
  | (n, ty, o) :: rest =>
    (nameStr n ++ (if o then "?" else "") ++ ": " ++ toStr ty) :: toStrPropList rest
termination_by l => sizeOf l
decreasing_by
  all_goals simp_wf
  all_goals omega

/-- The member strings of a union, in stored order. -/
def toStrList : List JSType → List String
  | [] => []
  | t :: rest => toStr t :: toStrList rest
termination_by l => sizeOf l
decreasing_by
  all_goals simp_wf
  all_goals omega

end

/-! ## JSON rendering of a message's slot list -/

/-- One slot of a message type list: an unset slot renders as `"never"`
(`MessageTypes.serializeJSON`, `serializeJSON` of `src/ts/ts.py`). -/
def slotJson : Option JSType → String
  | some t => jsonStr t
  | none => "\"never\""

/-- The entries of `MessageTypes.serializeJSON` (`src/ts/actor_decls.py`
lines 364-366): every stored slot is rendered, unset ones as `"never"`. -/
def messageTypesJsonEntries (types : List (Option JSType)) : List String :=
  types.map slotJson

/-- `MessageTypes.serializeJSON` / `toJSON`: the rendered JSON list. -/
def messageTypesJson (types : List (Option JSType)) : String :=
  "[" ++ joinSep ", " (messageTypesJsonEntries types) ++ "]"

/-- The per-message entries of `serializeJSON` (`src/ts/ts.py` lines
473-477): slots render as their `jsonStr` or `"never"`, and a 4-slot
list is truncated to 3 entries so the QueryReject type is never included. -/
def messageJsonEntries (tt : List (Option JSType)) : List String :=
  let l := tt.map slotJson
  if l.length == 4 then l.take 3 else l

/-! ## Well-formedness predicates -/

/-- Types whose unions are flattened: no `Union` member is itself a
`Union`, recursively.  The union/merge engine maintains this shape and
its `assert not isinstance(..., UnionType)` checks fail without it. -/
inductive Flat : JSType → Prop where
  | any : Flat .any
  | never : Flat .never
  | prim (n : String) : Flat (.prim n)
  | obj (props : List JSProp) : (∀ p ∈ props, Flat p.2.1) → Flat (.obj props)
  | array (e : JSType) : Flat e → Flat (.array e)
  | union (ts : List JSType) : (∀ t ∈ ts, Flat t) →
      (∀ t ∈ ts, t.isUnion = false) → Flat (.union ts)

/-- Values accepted by the Python constructors: `PrimitiveType` asserts
`primRegexp.match(name)` (a prefix match of one of `primitiveTypes`),
`ObjectType` asserts the property list is strictly ascending in adjacent
pairs, and `UnionType` asserts at least two members.  Note that the
`UnionType` constructor does not require members to be non-unions. -/
inductive Constructible : JSType → Prop where
  | any : Constructible .any
  | never : Constructible .never
  | prim (n : String) : (∃ p ∈ primitiveTypes, p.toList.isPrefixOf n.toList = true) →
      Constructible (.prim n)
  | obj (props : List JSProp) : (∀ p ∈ props, Constructible p.2.1) →
      props.Chain' (fun p q => propLtB p q = true) → Constructible (.obj props)
  | array (e : JSType) : Constructible e → Constructible (.array e)
  | union (ts : List JSType) : (∀ t ∈ ts, Constructible t) → 1 < ts.length →
      Constructible (.union ts)

/-- A property list in strictly ascending name order (the `ObjectType`
invariant, as a pairwise statement). -/
def SortedProps (l : List JSProp) : Prop :=
  l.Pairwise (fun p q => propLtB p q = true)

/-! ## Helper lemmas -/

@[simp] theorem isUnion_any : JSType.any.isUnion = false := rfl

@[simp] theorem isUnion_never : JSType.never.isUnion = false := rfl

@[simp] theorem isUnion_prim (n : String) : (JSType.prim n).isUnion = false := rfl

@[simp] theorem isUnion_obj (props : List JSProp) : (JSType.obj props).isUnion = false := rfl

@[simp] theorem isUnion_array (e : JSType) : (JSType.array e).isUnion = false := rfl

@[simp] theorem isUnion_union (ts : List JSType) : (JSType.union ts).isUnion = true := rfl

/-- The last slot surviving `trimTrailingNones` is a set slot. -/
theorem trim_getLast_isSome (l : List (Option JSType)) :
    ∀ x, (trimTrailingNones l).getLast? = some x → x.isSome = true := by
  induction l with
  | nil => intro x hx; simp [trimTrailingNones] at hx
  | cons o rest ih =>
    intro x hx
    rw [trimTrailingNones] at hx
    cases hr : trimTrailingNones rest with
    | nil =>
      rw [hr] at hx
      simp only [List.isEmpty_nil, if_true] at hx
      cases ho : o.isSome with
      | false => rw [ho] at hx; simp at hx
      | true => rw [ho] at hx; simp at hx; rw [hx] at ho; exact ho
    | cons r rs =>
      rw [hr] at hx
      simp only [List.isEmpty_cons, if_false, Bool.false_eq_true] at hx
      rw [List.getLast?_cons_cons] at hx
      exact ih x (hr ▸ hx)

/-- `isNeverB` recognizes exactly `NeverType`. -/
theorem isNeverB_eq_true (t : JSType) : isNeverB t = true ↔ t = .never := by
  cases t <;> simp [isNeverB]

/-! ## C7: the arrow form of message declarations -/

/-- C7: when parsing a declaration file, the arrow form `(_: T1) => T2` is
converted to kind assignments as follows: if `T1` and `T2` are both `Never`,
parsing fails with an error; if only `T1` is `Never`, the message is a
QueryResolve declaration of `T2` (slots `[None, T2]`); if only `T2` is
`Never`, the message is a Query declaration of `T1` (slots `[T1, None]`). -/
theorem c7_arrow_conversion :
    (∃ e, messageTypeArrow .never .never = .error e) ∧
    (∀ t2 : JSType, t2 ≠ .never → messageTypeArrow .never t2 = .ok [none, some t2]) ∧
    (∀ t1 : JSType, t1 ≠ .never → messageTypeArrow t1 .never = .ok [some t1, none]) := by
  refine ⟨⟨_, rfl⟩, ?_, ?_⟩
  · intro t2 h2
    have : isNeverB t2 = false := by
      cases hb : isNeverB t2
      · rfl
      · exact absurd ((isNeverB_eq_true t2).mp hb) h2
    simp [messageTypeArrow, isNeverB, this]
  · intro t1 h1
    have : isNeverB t1 = false := by
      cases hb : isNeverB t1
      · rfl
      · exact absurd ((isNeverB_eq_true t1).mp hb) h1
    simp [messageTypeArrow, isNeverB, this]

/-- C7 witness: the arrow conversion at the concrete types
`(_: never) => undefined` and `(_: undefined) => never`. -/
theorem c7_witness :
    messageTypeArrow .never (.prim "undefined") = .ok [none, some (.prim "undefined")] ∧
    messageTypeArrow (.prim "undefined") .never = .ok [some (.prim "undefined"), none] :=
  ⟨c7_arrow_conversion.2.1 (.prim "undefined") (by simp),
   c7_arrow_conversion.2.2 (.prim "undefined") (by simp)⟩

/-! ## C8: JSON rendering of a message's declared type -/

/-- C8 counterexample: unset kind slots are NOT omitted from the canonical
JSON rendering of a message's declared type.  The stored declared type
`[None, Any]` (a QueryResolve-only message, as produced by parsing
`(_: never) => any`) renders as `["never", "any"]`: the unset Query slot
is emitted as `"never"`, so the rendering has 2 entries while only 1 slot
is set. -/
theorem c8_counterexample :
    messageTypesJson [none, some JSType.any] = "[\"never\", \"any\"]" ∧
    (messageTypesJsonEntries [none, some JSType.any]).length ≠
      ([none, some JSType.any] : List (Option JSType)).countP (fun o => o.isSome) := by
  constructor
  · simp [messageTypesJson, messageTypesJsonEntries, slotJson, jsonStr, joinSep]
  · simp [messageTypesJsonEntries, slotJson, List.countP_cons]

/-- C8 (amended): in the canonical JSON rendering of a message's declared
type, an unset slot before the last set slot is emitted as `"never"`
rather than omitted (trailing unset slots have been trimmed before
storage); the emitted list is the rendering of the first three slots, so
it has at most 3 entries and the QueryReject slot (index 3) is never
emitted. -/
theorem c8_amended : ∀ tt : List (Option JSType), tt.length ≤ 4 →
    messageJsonEntries tt = (tt.take 3).map slotJson ∧
    (messageJsonEntries tt).length ≤ 3 := by
  intro tt hlen
  have hmain : messageJsonEntries tt = (tt.take 3).map slotJson := by
    rw [messageJsonEntries]
    simp only [List.length_map]
    by_cases h4 : tt.length = 4
    · rw [if_pos (by simp [h4])]
      exact (List.map_take slotJson tt 3).symm
    · have h3 : tt.length ≤ 3 := by omega
      simp only [beq_iff_eq, h4, if_false, Bool.false_eq_true]
      rw [List.take_of_length_le h3]
  refine ⟨hmain, ?_⟩
  rw [hmain]
  simp only [List.length_map, List.length_take]
  omega

/-- C8 witness: the amended statement at the concrete 4-slot list of a
message with all slots unset: three `"never"` entries are emitted and the
QueryReject slot is dropped. -/
theorem c8_witness :
    messageJsonEntries [none, none, none, none] =
      (([none, none, none, none] : List (Option JSType)).take 3).map slotJson ∧
    (messageJsonEntries ([none, none, none, none] : List (Option JSType))).length ≤ 3 :=
  c8_amended [none, none, none, none] (by simp)

/-! ## Inversion lemmas for `fillSlots` -/

/-- Inverting `fillSlots` on an empty kind list. -/
theorem fillSlots_inv_nil {kind : Nat} {hqr : Bool} {slots : List (Option JSType)}
    (h : fillSlots [] kind hqr = .ok slots) : slots = [] := by
  simp [fillSlots] at h
  exact h

/-- Inverting `fillSlots` when the current kind has no observations. -/
theorem fillSlots_inv_empty {rest : List (List JSType)} {kind : Nat} {hqr : Bool}
    {slots : List (Option JSType)}
    (h : fillSlots ([] :: rest) kind hqr = .ok slots) :
    ∃ slots2, fillSlots rest (kind + 1) hqr = .ok slots2 ∧
      slots = (if kind == 3 && hqr then some JSType.any else none) :: slots2 := by
  rw [fillSlots] at h
  cases hf : fillSlots rest (kind + 1) hqr with
  | error e => rw [hf] at h; simp at h
  | ok slots2 =>
    rw [hf] at h
    simp only [Except.ok.injEq] at h
    exact ⟨slots2, rfl, h.symm⟩

/-- Inverting `fillSlots` when the current kind has observations. -/
theorem fillSlots_inv_types {t : JSType} {ts : List JSType} {rest : List (List JSType)}
    {kind : Nat} {hqr : Bool} {slots : List (Option JSType)}
    (h : fillSlots ((t :: ts) :: rest) kind hqr = .ok slots) :
    ∃ ty slots2, combineTypes (t :: ts) = .ok ty ∧
      fillSlots rest (kind + 1) (kind == 2 || hqr) = .ok slots2 ∧
      slots = some ty :: slots2 := by
  rw [fillSlots] at h
  cases hc : combineTypes (t :: ts) with
  | error e => rw [hc] at h; simp at h
  | ok ty =>
    rw [hc] at h
    cases hf : fillSlots rest (kind + 1) (kind == 2 || hqr) with
    | error e => rw [hf] at h; simp at h
    | ok slots2 =>
      rw [hf] at h
      simp only [Except.ok.injEq] at h
      exact ⟨ty, slots2, rfl, rfl, h.symm⟩

/-! ## C6: defaulting of the QueryReject slot -/

/-- C6: during unify, for every message whose QueryReject slot has no
observations but whose QueryResolve slot was set, the QueryReject slot
defaults to `Any`; every other kind slot with no observations stays empty
(`None`). -/
theorem c6_reject_defaults_to_any :
    ∀ l0 l1 l2 l3 slots, fillSlots [l0, l1, l2, l3] 0 false = .ok slots →
    (l0 = [] → slots.getD 0 none = none) ∧
    (l1 = [] → slots.getD 1 none = none) ∧
    (l2 = [] → slots.getD 2 none = none) ∧
    (l3 = [] → l2 ≠ [] → slots.getD 3 none = some .any) ∧
    (l3 = [] → l2 = [] → slots.getD 3 none = none) := by
  intro l0 l1 l2 l3 slots h
  rcases l0 with _ | ⟨t0, ts0⟩ <;> rcases l1 with _ | ⟨t1, ts1⟩ <;>
    rcases l2 with _ | ⟨t2, ts2⟩ <;> rcases l3 with _ | ⟨t3, ts3⟩ <;>
  · repeat
      first
      | (replace h := fillSlots_inv_empty h; obtain ⟨s2, h, rfl⟩ := h)
      | (replace h := fillSlots_inv_types h; obtain ⟨ty, s2, hty, h, rfl⟩ := h)
    replace h := fillSlots_inv_nil h
    subst h
    refine ⟨?_, ?_, ?_, ?_, ?_⟩ <;> intros <;> simp_all

/-- C6 witness: a message observed only as a Query (kind 1) and a
QueryResolve (kind 2) gets `Any` in its QueryReject slot. -/
theorem c6_witness :
    ([none, some JSType.any, some JSType.any, some JSType.any] :
      List (Option JSType)).getD 3 none = some JSType.any :=
  (c6_reject_defaults_to_any [] [JSType.any] [JSType.any] []
    [none, some JSType.any, some JSType.any, some JSType.any] rfl).2.2.2.1 rfl (by simp)

/-! ## C4: reject-without-resolve and the test-actor allow-list -/

/-- C4: during unify, a message whose QueryReject slot has an observation
but whose QueryResolve slot has none is a validation error, unless the
actor is on the test-actor allow-list, in which case the missing
QueryResolve is synthesized as `Never` instead of erroring.  Stated on
`unify1T`, the spec-modelled revision of `unify1` (the message slot is
empty here; a set message slot errors earlier with "has both message and
query types"). -/
theorem c4_reject_without_resolve :
    ∀ (a m : String) (l1 l3 : List JSType), l3 ≠ [] →
    (a ∉ testActorNames → ∀ res, unify1T a m [[], l1, [], l3] ≠ .ok res) ∧
    (a ∈ testActorNames → ∀ res, unify1T a m [[], l1, [], l3] = .ok res →
      ∃ s1, res = [s1, some JSType.never]) := by
  intro a m l1 l3 h3
  rcases l3 with _ | ⟨t3, ts3⟩
  · exact absurd rfl h3
  cases hf : fillSlots [[], l1, [], t3 :: ts3] 0 false with
  | error e =>
    constructor
    · intro _ res; rw [unify1T, hf]; simp
    · intro _ res h; rw [unify1T, hf] at h; simp at h
  | ok slots =>
    obtain ⟨s0, hf2, rfl⟩ := fillSlots_inv_empty hf
    have hslots : ∃ s1 ty, combineTypes (t3 :: ts3) = .ok ty ∧
        s0 = [s1, none, some ty] := by
      rcases l1 with _ | ⟨t1, ts1⟩
      · obtain ⟨s1, hf3, rfl⟩ := fillSlots_inv_empty hf2
        obtain ⟨s2, hf4, rfl⟩ := fillSlots_inv_empty hf3
        obtain ⟨ty, s3, hty, hf5, rfl⟩ := fillSlots_inv_types hf4
        obtain rfl := fillSlots_inv_nil hf5
        exact ⟨_, ty, hty, rfl⟩
      · obtain ⟨ty1, s1, hty1, hf3, rfl⟩ := fillSlots_inv_types hf2
        obtain ⟨s2, hf4, rfl⟩ := fillSlots_inv_empty hf3
        obtain ⟨ty, s3, hty, hf5, rfl⟩ := fillSlots_inv_types hf4
        obtain rfl := fillSlots_inv_nil hf5
        exact ⟨_, ty, hty, rfl⟩
    obtain ⟨s1, ty, hty, rfl⟩ := hslots
    constructor
    · intro hmem res
      rw [unify1T, hf]
      simp [trimTrailingNones, hmem]
    · intro hmem res h
      rw [unify1T, hf] at h
      simp [trimTrailingNones, hmem] at h
      exact ⟨s1, h.symm⟩

/-- C4 witness: the allow-listed actor `SpecialPowers` with only a
QueryReject observation gets its QueryResolve slot synthesized as
`never`. -/
theorem c4_witness :
    ∃ s1, ([none, some JSType.never] : List (Option JSType)) = [s1, some JSType.never] :=
  (c4_reject_without_resolve "SpecialPowers" "M" [] [JSType.any] (by simp)).2
    (by simp [testActorNames]) [none, some JSType.never] rfl

/-! ## C10: unify rejects observation-free messages -/

/-- C10: a message whose four per-kind observation lists are all empty
makes `unify1` raise instead of producing a declaration; consequently
every slot list produced by `unify1` satisfies the `MessageTypes`
constructor checks: one or two slots, with at least one slot set. -/
theorem c10_no_observations :
    ∀ a m : String,
    (∃ e, unify1 a m [[], [], [], []] = .error e) ∧
    (∀ kindTypes res, unify1 a m kindTypes = .ok res → messageTypesOk res = true) := by
  intro a m
  constructor
  · exact ⟨_, rfl⟩
  · intro kt res h
    rw [unify1] at h
    cases hf : fillSlots kt 0 false with
    | error e => rw [hf] at h; simp at h
    | ok slots =>
      rw [hf] at h
      simp only at h
      have hlast := trim_getLast_isSome slots
      rcases hnt : trimTrailingNones slots with _ | ⟨o0, _ | ⟨o1, _ | ⟨o2, _ | ⟨o3, _ | ⟨o4, rest⟩⟩⟩⟩⟩ <;>
        rw [hnt] at h hlast <;> simp only [List.length_cons, List.length_nil] at h
      · simp at h
      · simp at h
        have h0 : o0.isSome = true := hlast o0 (by simp)
        subst h
        simp [messageTypesOk, h0]
      · cases ho0 : o0.isSome with
        | true => simp [ho0] at h
        | false =>
          simp [ho0] at h
          have h1 : o1.isSome = true := hlast o1 (by simp)
          subst h
          simp [messageTypesOk, h1]
      · cases ho0 : o0.isSome with
        | true => simp [ho0] at h
        | false =>
          simp [ho0] at h
          have h2 : o2.isSome = true := hlast o2 (by simp)
          subst h
          simp [messageTypesOk, h2]
      · cases ho0 : o0.isSome with
        | true => simp [ho0] at h
        | false =>
          cases o2 with
          | none => simp [ho0] at h
          | some t2 =>
            simp [ho0] at h
            subst h
            simp [messageTypesOk]
      · simp at h

/-- C10 witness: the error at the all-empty input, and the invariant at a
message with one `sendAsyncMessage` observation. -/
theorem c10_witness :
    (∃ e, unify1 "A" "M" [[], [], [], []] = .error e) ∧
    messageTypesOk [some JSType.any] = true :=
  ⟨(c10_no_observations "A" "M").1,
   (c10_no_observations "A" "M").2 [[JSType.any], [], [], []] [some JSType.any] rfl⟩

/-! ## C5: sorted text rendering vs. stored-order JSON rendering -/

/-- C5: the canonical text rendering of a Union lists its members in
sorted order while the canonical JSON rendering lists them in stored
merge order; unifying observed types `{x: undefined}` and `{x: boolean}`
where a property `y: number` is present only on the first yields the text
rendering `{x: boolean | undefined; y?: number}` — the union is stored as
`[undefined, boolean]` (merge order, visible in the JSON) and rendered
sorted as `boolean | undefined` in text. -/
theorem c5_union_render_order :
    tryUnionWith
      (.obj [(.inl "x", .prim "undefined", false), (.inl "y", .prim "number", false)])
      (.obj [(.inl "x", .prim "boolean", false)])
      = .ok (some (.obj [(.inl "x", .union [.prim "undefined", .prim "boolean"], false),
                         (.inl "y", .prim "number", true)])) ∧
    toStr (.obj [(.inl "x", .union [.prim "undefined", .prim "boolean"], false),
                 (.inl "y", .prim "number", true)])
      = "\x7bx: boolean | undefined; y?: number\x7d" ∧
    jsonStr (.obj [(.inl "x", .union [.prim "undefined", .prim "boolean"], false),
                   (.inl "y", .prim "number", true)])
      = "[\"object\", [\"x\", [\"union\", \"undefined\", \"boolean\"]], [\"y\", \"number\", true]]" ∧
    toStr (.union [.prim "undefined", .prim "boolean"]) = "boolean | undefined" ∧
    jsonStr (.union [.prim "undefined", .prim "boolean"])
      = "[\"union\", \"undefined\", \"boolean\"]" := by
  refine ⟨?_, ?_, ?_, ?_, ?_⟩
  · simp [tryUnionWith, objectAbsorb, unionWith, propNameLtB, strLtB, charsLtB]
  · simp [toStr, toStrPropList, toStrList, sortStrs, insertStr, strLtB, charsLtB,
      nameStr, isIdentifierName, isIdentChar, joinSep]
  · simp [jsonStr, jsonPropList, jsonUnionList, jsonUnionFold, jsonNameStr, escapeQuotes, joinSep]
  · simp [toStr, toStrList, sortStrs, insertStr, strLtB, charsLtB, joinSep]
  · simp [jsonStr, jsonUnionList, jsonUnionFold]

/-! ## C1: identity and absorbing elements of union -/

/-- C1 counterexample: `unionWith(AnyType(), t)` does NOT equal `AnyType()`
for every constructible `t`: for the (flat, constructible) union
`null | string`, the loop of `absorbNonUnion` finds that its first member
merges with `Any` but discards the merged value (`t = t2New` rebinds the
loop variable only), so the union is returned unchanged. -/
theorem c1_counterexample :
    Constructible (.union [.prim "null", .prim "string"]) ∧
    Flat (.union [.prim "null", .prim "string"]) ∧
    unionWith .any (.union [.prim "null", .prim "string"])
      = .ok (.union [.prim "null", .prim "string"]) ∧
    JSType.union [.prim "null", .prim "string"] ≠ .any := by
  refine ⟨?_, ?_, ?_, by simp⟩
  · refine Constructible.union _ ?_ (by simp)
    intro t ht
    simp only [List.mem_cons, List.mem_singleton, List.not_mem_nil, or_false] at ht
    rcases ht with rfl | rfl
    · exact Constructible.prim _ (by decide)
    · exact Constructible.prim _ (by decide)
  · refine Flat.union _ ?_ ?_ <;> intro t ht <;>
      simp only [List.mem_cons, List.mem_singleton, List.not_mem_nil, or_false] at ht <;>
      rcases ht with rfl | rfl <;> first | exact Flat.prim _ | simp
  · simp [unionWith, tryUnionWith, absorbNonUnion, absorbNonUnionGo]

/-- C1 (amended): `unionWith(NeverType(), t) = t` for every constructible
flat `t` (`Never` is the identity element); `unionWith(AnyType(), t) =
AnyType()` for every constructible flat non-Union `t`; for a constructible
flat Union `t`, `unionWith(AnyType(), t)` returns `t` unchanged instead of
`AnyType()`. -/
theorem c1_identity_absorbing : ∀ t : JSType, Constructible t → Flat t →
    (unionWith .never t = .ok t) ∧
    (t.isUnion = false → unionWith .any t = .ok .any) ∧
    (t.isUnion = true → unionWith .any t = .ok t) := by
  intro t hc hf
  cases t with
  | any => exact ⟨by simp [unionWith, tryUnionWith], fun _ => by simp [unionWith, tryUnionWith], by simp⟩
  | never => exact ⟨by simp [unionWith, tryUnionWith], fun _ => by simp [unionWith, tryUnionWith], by simp⟩
  | prim n => exact ⟨by simp [unionWith, tryUnionWith], fun _ => by simp [unionWith, tryUnionWith], by simp⟩
  | obj props => exact ⟨by simp [unionWith, tryUnionWith], fun _ => by simp [unionWith, tryUnionWith], by simp⟩
  | array e => exact ⟨by simp [unionWith, tryUnionWith], fun _ => by simp [unionWith, tryUnionWith], by simp⟩
  | union ts =>
    have hlen : 1 < ts.length := by cases hc with | union _ _ h => exact h
    have hmem : ∀ t ∈ ts, JSType.isUnion t = false := by
      cases hf with | union _ _ h => exact h
    rcases ts with _ | ⟨m, ms⟩
    · simp at hlen
    have hmu : m.isUnion = false := hmem m (by simp)
    refine ⟨?_, by simp, fun _ => ?_⟩
    · have hstep : tryUnionWith m .never = .ok (some m) := by
        cases m <;> simp [tryUnionWith]
      simp [unionWith, tryUnionWith, absorbNonUnion, absorbNonUnionGo, hmu, hstep]
    · have hstep : tryUnionWith m .any = .ok (some .any) := by
        cases m <;> simp [tryUnionWith]
      simp [unionWith, tryUnionWith, absorbNonUnion, absorbNonUnionGo, hmu, hstep]

/-- C1 witness: the amended statement at the primitive `null` and at the
union `null | string`. -/
theorem c1_witness :
    unionWith .never (.prim "null") = .ok (.prim "null") ∧
    unionWith .any (.prim "null") = .ok .any ∧
    unionWith .never (.union [.prim "null", .prim "string"])
      = .ok (.union [.prim "null", .prim "string"]) := by
  have hprim := c1_identity_absorbing (.prim "null")
    (Constructible.prim _ (by decide)) (Flat.prim _)
  have hu : Constructible (.union [.prim "null", .prim "string"]) := by
    refine Constructible.union _ ?_ (by simp)
    intro t ht
    simp only [List.mem_cons, List.mem_singleton, List.not_mem_nil, or_false] at ht
    rcases ht with rfl | rfl
    · exact Constructible.prim _ (by decide)
    · exact Constructible.prim _ (by decide)
  have hfu : Flat (.union [.prim "null", .prim "string"]) := by
    refine Flat.union _ ?_ ?_ <;> intro t ht <;>
      simp only [List.mem_cons, List.mem_singleton, List.not_mem_nil, or_false] at ht <;>
      rcases ht with rfl | rfl <;> first | exact Flat.prim _ | simp
  exact ⟨hprim.1, hprim.2.1 rfl, (c1_identity_absorbing _ hu hfu).1⟩

/-! ## The ordering of property names -/

theorem charsLtB_trans : ∀ (a b c : List Char), charsLtB a b = true →
    charsLtB b c = true → charsLtB a c = true := by
  intro a
  induction a with
  | nil =>
    intro b c hab hbc
    cases c with
    | nil =>
      cases b with
      | nil => simp [charsLtB] at hab
      | cons b0 bs => simp [charsLtB] at hbc
    | cons c0 cs => simp [charsLtB]
  | cons a0 as iha =>
    intro b c hab hbc
    cases b with
    | nil => simp [charsLtB] at hab
    | cons b0 bs =>
      cases c with
      | nil => simp [charsLtB] at hbc
      | cons c0 cs =>
        simp only [charsLtB] at hab hbc ⊢
        rcases lt_trichotomy a0 b0 with h1 | h1 | h1 <;>
          rcases lt_trichotomy b0 c0 with h2 | h2 | h2
        · simp [lt_trans h1 h2]
        · subst h2; simp [h1]
        · simp [h1, lt_asymm h1] at hab
          simp [h2, lt_asymm h2] at hbc
        · subst h1; simp [h2]
        · subst h1; subst h2
          simp [lt_irrefl] at hab hbc ⊢
          exact iha bs cs hab hbc
        · subst h1
          simp [h2, lt_asymm h2] at hbc
        · simp [h1, lt_asymm h1] at hab
        · simp [h1, lt_asymm h1] at hab
        · simp [h1, lt_asymm h1] at hab

theorem charsLtB_ne : ∀ (a b : List Char), charsLtB a b = true → a ≠ b := by
  intro a
  induction a with
  | nil =>
    intro b hab
    cases b with
    | nil => simp [charsLtB] at hab
    | cons b0 bs => simp
  | cons a0 as iha =>
    intro b hab
    cases b with
    | nil => simp [charsLtB] at hab
    | cons b0 bs =>
      simp only [charsLtB] at hab
      rcases lt_trichotomy a0 b0 with h1 | h1 | h1
      · simp [ne_of_lt h1]
      · subst h1
        simp [lt_irrefl] at hab
        simp [iha bs hab]
      · simp [h1, lt_asymm h1] at hab

theorem charsLtB_total : ∀ (a b : List Char), charsLtB a b = false →
    charsLtB b a = false → a = b := by
  intro a
  induction a with
  | nil =>
    intro b hab _
    cases b with
    | nil => rfl
    | cons b0 bs => simp [charsLtB] at hab
  | cons a0 as iha =>
    intro b hab hba
    cases b with
    | nil => simp [charsLtB] at hba
    | cons b0 bs =>
      simp only [charsLtB] at hab hba
      rcases lt_trichotomy a0 b0 with h1 | h1 | h1
      · simp [h1] at hab
      · subst h1
        simp [lt_irrefl] at hab hba
        simp [iha bs hab hba]
      · simp [h1] at hba

theorem propNameLtB_trans {a b c : PropName} (hab : propNameLtB a b = true)
    (hbc : propNameLtB b c = true) : propNameLtB a c = true := by
  rcases a with sa | ia <;> rcases b with sb | ib <;> rcases c with sc | ic <;>
    simp_all only [propNameLtB, strLtB, decide_eq_true_eq, Bool.false_eq_true,
      decide_eq_true_eq]
  · exact charsLtB_trans _ _ _ hab hbc
  · omega

theorem propNameLtB_ne {a b : PropName} (hab : propNameLtB a b = true) : a ≠ b := by
  rcases a with sa | ia <;> rcases b with sb | ib <;>
    simp only [propNameLtB, strLtB, decide_eq_true_eq, ne_eq, Sum.inl.injEq,
      Sum.inr.injEq, reduceCtorEq, not_false_eq_true] at *
  · intro hEq
    exact charsLtB_ne _ _ hab (by rw [hEq])
  · omega

theorem propNameLtB_total {a b : PropName} (hab : propNameLtB a b = false)
    (hba : propNameLtB b a = false) : a = b := by
  rcases a with sa | ia <;> rcases b with sb | ib <;>
    simp only [propNameLtB, strLtB, decide_eq_false_iff_not] at *
  · have := charsLtB_total _ _ hab hba
    have : sa = sb := by
      cases sa; cases sb; simp_all [String.toList]
    simp [this]
  · simp at hab
  · simp at hba
  · simp only [Sum.inr.injEq]; omega

theorem objectAbsorb_names : ∀ (n : Nat) (l1 l2 l : List JSProp),
    l1.length + l2.length ≤ n → objectAbsorb l1 l2 = .ok l →
    ∀ nm : PropName, nm ∈ l.map (fun p => p.1) ↔
      (nm ∈ l1.map (fun p => p.1) ∨ nm ∈ l2.map (fun p => p.1)) := by
  intro n
  induction n with
  | zero =>
    intro l1 l2 l hlen h nm
    rcases l1 with _ | ⟨p, r1⟩
    · simp only [objectAbsorb, Except.ok.injEq] at h
      subst h
      simp [List.map_map, Function.comp]
    · simp at hlen
  | succ n ih =>
    intro l1 l2 l hlen h nm
    rcases l1 with _ | ⟨⟨n1, ty1, o1⟩, r1⟩
    · simp only [objectAbsorb, Except.ok.injEq] at h
      subst h
      simp [List.map_map, Function.comp]
    · rcases l2 with _ | ⟨⟨n2, ty2, o2⟩, r2⟩
      · rw [objectAbsorb] at h
        cases hr : objectAbsorb r1 [] with
        | error e => rw [hr] at h; simp at h
        | ok rest =>
          rw [hr] at h
          simp only [Except.ok.injEq] at h
          subst h
          have := ih r1 [] rest (by simp at hlen ⊢; omega) hr nm
          simp_all
      · rw [objectAbsorb] at h
        by_cases hlt : propNameLtB n2 n1 = true
        · rw [if_pos hlt] at h
          cases hr : objectAbsorb ((n1, ty1, o1) :: r1) r2 with
          | error e => rw [hr] at h; simp at h
          | ok rest =>
            rw [hr] at h
            simp only [Except.ok.injEq] at h
            subst h
            have := ih ((n1, ty1, o1) :: r1) r2 rest (by simp at hlen ⊢; omega) hr nm
            simp only [List.map_cons, List.mem_cons] at this ⊢
            rw [this]
            tauto
        · rw [if_neg (by simp [hlt])] at h
          by_cases heq : n1 = n2
          · rw [if_pos heq] at h
            cases hu : unionWith ty1 ty2 with
            | error e => rw [hu] at h; simp at h
            | ok ty =>
              rw [hu] at h
              cases hr : objectAbsorb r1 r2 with
              | error e => rw [hr] at h; simp at h
              | ok rest =>
                rw [hr] at h
                simp only [Except.ok.injEq] at h
                subst h
                have := ih r1 r2 rest (by simp at hlen ⊢; omega) hr nm
                subst heq
                simp only [List.map_cons, List.mem_cons] at this ⊢
                rw [this]
                tauto
          · rw [if_neg heq] at h
            cases hr : objectAbsorb r1 ((n2, ty2, o2) :: r2) with
            | error e => rw [hr] at h; simp at h
            | ok rest =>
              rw [hr] at h
              simp only [Except.ok.injEq] at h
              subst h
              have := ih r1 ((n2, ty2, o2) :: r2) rest (by simp at hlen ⊢; omega) hr nm
              simp only [List.map_cons, List.mem_cons] at this ⊢
              rw [this]
              tauto

theorem sortedProps_cons {p : JSProp} {l : List JSProp} (h : SortedProps (p :: l)) :
    (∀ q ∈ l, propNameLtB p.1 q.1 = true) ∧ SortedProps l := by
  rw [SortedProps, List.pairwise_cons] at h
  exact ⟨fun q hq => h.1 q hq, h.2⟩

theorem objectAbsorb_sorted : ∀ (n : Nat) (l1 l2 l : List JSProp),
    l1.length + l2.length ≤ n →
    SortedProps l1 → SortedProps l2 → objectAbsorb l1 l2 = .ok l →
    SortedProps l := by
  intro n
  induction n with
  | zero =>
    intro l1 l2 l hlen h1 h2 h
    rcases l1 with _ | ⟨p, r1⟩
    · simp only [objectAbsorb, Except.ok.injEq] at h
      subst h
      exact List.Pairwise.map _ (fun a b hab => hab) h2
    · simp at hlen
  | succ n ih =>
    intro l1 l2 l hlen h1 h2 h
    rcases l1 with _ | ⟨⟨n1, ty1, o1⟩, r1⟩
    · simp only [objectAbsorb, Except.ok.injEq] at h
      subst h
      exact List.Pairwise.map _ (fun a b hab => hab) h2
    · obtain ⟨h1h, h1t⟩ := sortedProps_cons h1
      rcases l2 with _ | ⟨⟨n2, ty2, o2⟩, r2⟩
      · rw [objectAbsorb] at h
        cases hr : objectAbsorb r1 [] with
        | error e => rw [hr] at h; simp at h
        | ok rest =>
          rw [hr] at h
          simp only [Except.ok.injEq] at h
          subst h
          rw [SortedProps, List.pairwise_cons]
          refine ⟨?_, ih r1 [] rest (by simp at hlen ⊢; omega) h1t (by simp [SortedProps]) hr⟩
          intro q hq
          have hqn : q.1 ∈ rest.map (fun p => p.1) := List.mem_map_of_mem _ hq
          rw [objectAbsorb_names (r1.length + ([] : List JSProp).length) r1 [] rest
            (le_refl _) hr q.1] at hqn
          simp only [List.map_nil, List.not_mem_nil, or_false] at hqn
          obtain ⟨q2, hq2, hq2n⟩ := List.mem_map.mp hqn
          have hx := h1h q2 hq2
          rw [hq2n] at hx
          exact hx
      · obtain ⟨h2h, h2t⟩ := sortedProps_cons h2
        rw [objectAbsorb] at h
        by_cases hlt : propNameLtB n2 n1 = true
        · rw [if_pos hlt] at h
          cases hr : objectAbsorb ((n1, ty1, o1) :: r1) r2 with
          | error e => rw [hr] at h; simp at h
          | ok rest =>
            rw [hr] at h
            simp only [Except.ok.injEq] at h
            subst h
            rw [SortedProps, List.pairwise_cons]
            refine ⟨?_, ih ((n1, ty1, o1) :: r1) r2 rest (by simp at hlen ⊢; omega) h1 h2t hr⟩
            intro q hq
            have hqn : q.1 ∈ rest.map (fun p => p.1) := List.mem_map_of_mem _ hq
            rw [objectAbsorb_names (((n1, ty1, o1) :: r1).length + r2.length)
              ((n1, ty1, o1) :: r1) r2 rest (le_refl _) hr q.1] at hqn
            simp only [List.map_cons, List.mem_cons] at hqn
            rcases hqn with (rfl | hq1) | hq2
            · exact hlt
            · obtain ⟨q2, hq2, hq2n⟩ := List.mem_map.mp hq1
              have hx := propNameLtB_trans hlt (h1h q2 hq2)
              rw [hq2n] at hx
              exact hx
            · obtain ⟨q2, hq2, hq2n⟩ := List.mem_map.mp hq2
              have hx := h2h q2 hq2
              rw [hq2n] at hx
              exact hx
        · rw [if_neg (by simp [hlt])] at h
          by_cases heq : n1 = n2
          · rw [if_pos heq] at h
            cases hu : unionWith ty1 ty2 with
            | error e => rw [hu] at h; simp at h
            | ok ty =>
              rw [hu] at h
              cases hr : objectAbsorb r1 r2 with
              | error e => rw [hr] at h; simp at h
              | ok rest =>
                rw [hr] at h
                simp only [Except.ok.injEq] at h
                subst h
                rw [SortedProps, List.pairwise_cons]
                refine ⟨?_, ih r1 r2 rest (by simp at hlen ⊢; omega) h1t h2t hr⟩
                intro q hq
                have hqn : q.1 ∈ rest.map (fun p => p.1) := List.mem_map_of_mem _ hq
                rw [objectAbsorb_names (r1.length + r2.length) r1 r2 rest
                  (le_refl _) hr q.1] at hqn
                rcases hqn with hq1 | hq2
                · obtain ⟨q2, hq2, hq2n⟩ := List.mem_map.mp hq1
                  have hx := h1h q2 hq2
                  rw [hq2n] at hx
                  exact hx
                · obtain ⟨q2, hq2', hq2n⟩ := List.mem_map.mp hq2
                  have hx := h2h q2 hq2'
                  rw [hq2n] at hx
                  rw [heq]
                  exact hx
          · rw [if_neg heq] at h
            have hlt1 : propNameLtB n1 n2 = true := by
              cases hx : propNameLtB n1 n2 with
              | true => rfl
              | false =>
                exact absurd (propNameLtB_total hx (by simpa using hlt)) heq
            cases hr : objectAbsorb r1 ((n2, ty2, o2) :: r2) with
            | error e => rw [hr] at h; simp at h
            | ok rest =>
              rw [hr] at h
              simp only [Except.ok.injEq] at h
              subst h
              rw [SortedProps, List.pairwise_cons]
              refine ⟨?_, ih r1 ((n2, ty2, o2) :: r2) rest (by simp at hlen ⊢; omega) h1t h2 hr⟩
              intro q hq
              have hqn : q.1 ∈ rest.map (fun p => p.1) := List.mem_map_of_mem _ hq
              rw [objectAbsorb_names (r1.length + ((n2, ty2, o2) :: r2).length) r1
                ((n2, ty2, o2) :: r2) rest (le_refl _) hr q.1] at hqn
              simp only [List.map_cons, List.mem_cons] at hqn
              rcases hqn with hq1 | (rfl | hq2)
              · obtain ⟨q2, hq2, hq2n⟩ := List.mem_map.mp hq1
                have hx := h1h q2 hq2
                rw [hq2n] at hx
                exact hx
              · exact hlt1
              · obtain ⟨q2, hq2', hq2n⟩ := List.mem_map.mp hq2
                have hx := propNameLtB_trans hlt1 (h2h q2 hq2')
                rw [hq2n] at hx
                exact hx

theorem not_mem_names_of_lt_all {nm : PropName} {r : List JSProp}
    (h : ∀ p ∈ r, propNameLtB nm p.1 = true) : nm ∉ r.map (fun p => p.1) := by
  intro hmem
  obtain ⟨q, hq, hqn⟩ := List.mem_map.mp hmem
  have hx := h q hq
  rw [hqn] at hx
  exact propNameLtB_ne hx rfl

theorem objectAbsorb_find : ∀ (n : Nat) (l1 l2 l : List JSProp),
    l1.length + l2.length ≤ n →
    SortedProps l1 → SortedProps l2 → objectAbsorb l1 l2 = .ok l →
    (∀ nm ty o, (nm, ty, o) ∈ l1 → nm ∉ l2.map (fun p => p.1) → (nm, ty, true) ∈ l) ∧
    (∀ nm ty o, (nm, ty, o) ∈ l2 → nm ∉ l1.map (fun p => p.1) → (nm, ty, true) ∈ l) ∧
    (∀ nm ty1 o1 ty2 o2, (nm, ty1, o1) ∈ l1 → (nm, ty2, o2) ∈ l2 →
      ∃ ty, unionWith ty1 ty2 = .ok ty ∧ (nm, ty, o1 || o2) ∈ l) := by
  intro n
  induction n with
  | zero =>
    intro l1 l2 l hlen h1 h2 h
    rcases l1 with _ | ⟨p, r1⟩
    · simp only [objectAbsorb, Except.ok.injEq] at h
      subst h
      refine ⟨by simp, ?_, by simp⟩
      intro nm ty o hmem _
      exact List.mem_map.mpr ⟨(nm, ty, o), hmem, rfl⟩
    · simp at hlen
  | succ n ih =>
    intro l1 l2 l hlen h1 h2 h
    rcases l1 with _ | ⟨⟨n1, ty1, o1⟩, r1⟩
    · simp only [objectAbsorb, Except.ok.injEq] at h
      subst h
      refine ⟨by simp, ?_, by simp⟩
      intro nm ty o hmem _
      exact List.mem_map.mpr ⟨(nm, ty, o), hmem, rfl⟩
    · obtain ⟨h1h, h1t⟩ := sortedProps_cons h1
      rcases l2 with _ | ⟨⟨n2, ty2, o2⟩, r2⟩
      · rw [objectAbsorb] at h
        cases hr : objectAbsorb r1 [] with
        | error e => rw [hr] at h; simp at h
        | ok rest =>
          rw [hr] at h
          simp only [Except.ok.injEq] at h
          subst h
          obtain ⟨ihc, ihd, ihe⟩ := ih r1 [] rest (by simp at hlen ⊢; omega) h1t
            (by simp [SortedProps]) hr
          refine ⟨?_, by simp, by simp⟩
          intro nm ty o hmem hnot
          rcases List.mem_cons.mp hmem with heq | hmem2
          · simp only [Prod.mk.injEq] at heq
            obtain ⟨rfl, rfl, rfl⟩ := heq
            exact List.mem_cons_self _ _
          · exact List.mem_cons_of_mem _ (ihc nm ty o hmem2 (by simp))
      · obtain ⟨h2h, h2t⟩ := sortedProps_cons h2
        rw [objectAbsorb] at h
        by_cases hlt : propNameLtB n2 n1 = true
        · rw [if_pos hlt] at h
          cases hr : objectAbsorb ((n1, ty1, o1) :: r1) r2 with
          | error e => rw [hr] at h; simp at h
          | ok rest =>
            rw [hr] at h
            simp only [Except.ok.injEq] at h
            subst h
            obtain ⟨ihc, ihd, ihe⟩ := ih ((n1, ty1, o1) :: r1) r2 rest
              (by simp at hlen ⊢; omega) h1 h2t hr
            refine ⟨?_, ?_, ?_⟩
            · intro nm ty o hmem hnot
              simp only [List.map_cons, List.mem_cons, not_or] at hnot
              exact List.mem_cons_of_mem _ (ihc nm ty o hmem (by
                intro hx
                exact hnot.2 hx))
            · intro nm ty o hmem hnot
              rcases List.mem_cons.mp hmem with heq | hmem2
              · simp only [Prod.mk.injEq] at heq
                obtain ⟨rfl, rfl, rfl⟩ := heq
                exact List.mem_cons_self _ _
              · exact List.mem_cons_of_mem _ (ihd nm ty o hmem2 hnot)
            · intro nm t1 a1 t2 a2 hm1 hm2
              rcases List.mem_cons.mp hm2 with heq | hm2t
              · simp only [Prod.mk.injEq] at heq
                obtain ⟨rfl, rfl, rfl⟩ := heq
                exfalso
                rcases List.mem_cons.mp hm1 with heq1 | hm1t
                · simp only [Prod.mk.injEq] at heq1
                  obtain ⟨rfl, _, _⟩ := heq1
                  exact propNameLtB_ne hlt rfl
                · have hx := h1h _ hm1t
                  exact propNameLtB_ne (propNameLtB_trans hlt hx) rfl
              · obtain ⟨ty, hu, hmem⟩ := ihe nm t1 a1 t2 a2 hm1 hm2t
                exact ⟨ty, hu, List.mem_cons_of_mem _ hmem⟩
        · rw [if_neg (by simp [hlt])] at h
          by_cases heq : n1 = n2
          · rw [if_pos heq] at h
            cases hu : unionWith ty1 ty2 with
            | error e => rw [hu] at h; simp at h
            | ok ty =>
              rw [hu] at h
              cases hr : objectAbsorb r1 r2 with
              | error e => rw [hr] at h; simp at h
              | ok rest =>
                rw [hr] at h
                simp only [Except.ok.injEq] at h
                subst h
                subst heq
                obtain ⟨ihc, ihd, ihe⟩ := ih r1 r2 rest (by simp at hlen ⊢; omega) h1t h2t hr
                refine ⟨?_, ?_, ?_⟩
                · intro nm ty0 o hmem hnot
                  simp only [List.map_cons, List.mem_cons, not_or] at hnot
                  rcases List.mem_cons.mp hmem with heq1 | hmem2
                  · simp only [Prod.mk.injEq] at heq1
                    obtain ⟨rfl, _, _⟩ := heq1
                    exact absurd rfl hnot.1
                  · exact List.mem_cons_of_mem _ (ihc nm ty0 o hmem2 (by
                      intro hx
                      exact hnot.2 hx))
                · intro nm ty0 o hmem hnot
                  simp only [List.map_cons, List.mem_cons, not_or] at hnot
                  rcases List.mem_cons.mp hmem with heq1 | hmem2
                  · simp only [Prod.mk.injEq] at heq1
                    obtain ⟨rfl, _, _⟩ := heq1
                    exact absurd rfl hnot.1
                  · exact List.mem_cons_of_mem _ (ihd nm ty0 o hmem2 (by
                      intro hx
                      exact hnot.2 hx))
                · intro nm t1 a1 t2 a2 hm1 hm2
                  rcases List.mem_cons.mp hm1 with heq1 | hm1t
                  · simp only [Prod.mk.injEq] at heq1
                    obtain ⟨rfl, rfl, rfl⟩ := heq1
                    rcases List.mem_cons.mp hm2 with heq2 | hm2t
                    · simp only [Prod.mk.injEq] at heq2
                      obtain ⟨_, rfl, rfl⟩ := heq2
                      exact ⟨ty, hu, List.mem_cons_self _ _⟩
                    · exfalso
                      have hx := h2h _ hm2t
                      exact propNameLtB_ne hx rfl
                  · rcases List.mem_cons.mp hm2 with heq2 | hm2t
                    · simp only [Prod.mk.injEq] at heq2
                      obtain ⟨rfl, rfl, rfl⟩ := heq2
                      exfalso
                      have hx := h1h _ hm1t
                      exact propNameLtB_ne hx rfl
                    · obtain ⟨ty0, hu0, hmem0⟩ := ihe nm t1 a1 t2 a2 hm1t hm2t
                      exact ⟨ty0, hu0, List.mem_cons_of_mem _ hmem0⟩
          · rw [if_neg heq] at h
            have hlt1 : propNameLtB n1 n2 = true := by
              cases hx : propNameLtB n1 n2 with
              | true => rfl
              | false => exact absurd (propNameLtB_total hx (by simpa using hlt)) heq
            cases hr : objectAbsorb r1 ((n2, ty2, o2) :: r2) with
            | error e => rw [hr] at h; simp at h
            | ok rest =>
              rw [hr] at h
              simp only [Except.ok.injEq] at h
              subst h
              obtain ⟨ihc, ihd, ihe⟩ := ih r1 ((n2, ty2, o2) :: r2) rest
                (by simp at hlen ⊢; omega) h1t h2 hr
              refine ⟨?_, ?_, ?_⟩
              · intro nm ty0 o hmem hnot
                rcases List.mem_cons.mp hmem with heq1 | hmem2
                · simp only [Prod.mk.injEq] at heq1
                  obtain ⟨rfl, rfl, rfl⟩ := heq1
                  exact List.mem_cons_self _ _
                · exact List.mem_cons_of_mem _ (ihc nm ty0 o hmem2 hnot)
              · intro nm ty0 o hmem hnot
                simp only [List.map_cons, List.mem_cons, not_or] at hnot
                exact List.mem_cons_of_mem _ (ihd nm ty0 o hmem (by
                  intro hx
                  exact hnot.2 hx))
              · intro nm t1 a1 t2 a2 hm1 hm2
                rcases List.mem_cons.mp hm1 with heq1 | hm1t
                · simp only [Prod.mk.injEq] at heq1
                  obtain ⟨rfl, rfl, rfl⟩ := heq1
                  exfalso
                  rcases List.mem_cons.mp hm2 with heq2 | hm2t
                  · simp only [Prod.mk.injEq] at heq2
                    obtain ⟨h21, _, _⟩ := heq2
                    exact heq h21
                  · have hx := h2h _ hm2t
                    exact propNameLtB_ne (propNameLtB_trans hlt1 hx) rfl
                · obtain ⟨ty0, hu0, hmem0⟩ := ihe nm t1 a1 t2 a2 hm1t hm2
                  exact ⟨ty0, hu0, List.mem_cons_of_mem _ hmem0⟩

theorem jstype_sizeOf_pos (t : JSType) : 0 < sizeOf t := by
  cases t <;> simp_arith

theorem list_sizeOf_pos {α : Type} [SizeOf α] (l : List α) : 0 < sizeOf l := by
  cases l <;> simp_arith

theorem flat_union_mem {ts : List JSType} (h : Flat (.union ts)) :
    (∀ t ∈ ts, Flat t) ∧ (∀ t ∈ ts, t.isUnion = false) := by
  cases h with | union _ h1 h2 => exact ⟨h1, h2⟩

theorem flat_obj_mem {props : List JSProp} (h : Flat (.obj props)) :
    ∀ p ∈ props, Flat p.2.1 := by
  cases h with | obj _ h1 => exact h1

theorem flat_array_elem {e : JSType} (h : Flat (.array e)) : Flat e := by
  cases h with | array _ h1 => exact h1

theorem mergeTotal : ∀ N : Nat,
    (∀ t1 t2 : JSType, 2 * (sizeOf t1 + sizeOf t2) ≤ N → Flat t1 → Flat t2 →
      ∃ r, tryUnionWith t1 t2 = .ok r) ∧
    (∀ t1 t2 : JSType, 2 * (sizeOf t1 + sizeOf t2) + 1 ≤ N → Flat t1 → Flat t2 →
      ∃ t, unionWith t1 t2 = .ok t) ∧
    (∀ (ts : List JSType) (t2 : JSType), 2 * (sizeOf ts + sizeOf t2) ≤ N →
      (∀ t ∈ ts, Flat t) → (∀ t ∈ ts, t.isUnion = false) → Flat t2 → t2.isUnion = false →
      ∃ b, absorbNonUnionGo ts t2 = .ok b) ∧
    (∀ (ts : List JSType) (t2 : JSType), 2 * (sizeOf ts + sizeOf t2) + 1 ≤ N →
      (∀ t ∈ ts, Flat t) → (∀ t ∈ ts, t.isUnion = false) → Flat t2 → t2.isUnion = false →
      ∃ r, absorbNonUnion ts t2 = .ok r) ∧
    (∀ (t1 : JSType) (os : List JSType), 2 * (sizeOf t1 + sizeOf os) ≤ N →
      Flat t1 → t1.isUnion = false → (∀ t ∈ os, Flat t) → (∀ t ∈ os, t.isUnion = false) →
      ∃ r, absorbUnionScan t1 os = .ok r ∧
        ∀ t1New os2, r = some (t1New, os2) → ∀ x ∈ os2.val, x ∈ os) ∧
    (∀ (ts os : List JSType), 2 * (sizeOf ts + sizeOf os) + 1 ≤ N →
      (∀ t ∈ ts, Flat t) → (∀ t ∈ ts, t.isUnion = false) →
      (∀ t ∈ os, Flat t) → (∀ t ∈ os, t.isUnion = false) →
      ∃ r, absorbUnionGo ts os = .ok r) ∧
    (∀ (l1 l2 : List JSProp), 2 * (sizeOf l1 + sizeOf l2) ≤ N →
      (∀ p ∈ l1, Flat p.2.1) → (∀ p ∈ l2, Flat p.2.1) →
      ∃ l, objectAbsorb l1 l2 = .ok l) := by
  intro N
  induction N with
  | zero =>
    refine ⟨?_, ?_, ?_, ?_, ?_, ?_, ?_⟩ <;> intro x1 x2 hm
    · exact absurd hm (by have := jstype_sizeOf_pos x1; have := jstype_sizeOf_pos x2; omega)
    · exact absurd hm (by have := jstype_sizeOf_pos x1; have := jstype_sizeOf_pos x2; omega)
    · exact absurd hm (by have := list_sizeOf_pos x1; have := jstype_sizeOf_pos x2; omega)
    · exact absurd hm (by have := list_sizeOf_pos x1; have := jstype_sizeOf_pos x2; omega)
    · exact absurd hm (by have := jstype_sizeOf_pos x1; have := list_sizeOf_pos x2; omega)
    · exact absurd hm (by have := list_sizeOf_pos x1; have := list_sizeOf_pos x2; omega)
    · exact absurd hm (by have := list_sizeOf_pos x1; have := list_sizeOf_pos x2; omega)
  | succ n ih =>
    obtain ⟨ihTry, ihUnion, ihGoNU, ihNU, ihScan, ihGo, ihObj⟩ := ih
    have hTry : ∀ t1 t2 : JSType, 2 * (sizeOf t1 + sizeOf t2) ≤ n + 1 → Flat t1 → Flat t2 →
        ∃ r, tryUnionWith t1 t2 = .ok r := by
      intro t1 t2 hm hf1 hf2
      cases t2 with
      | any => exact ⟨some .any, by simp [tryUnionWith]⟩
      | never => exact ⟨some t1, by simp [tryUnionWith]⟩
      | union ts2 =>
        obtain ⟨hm2f, hm2u⟩ := flat_union_mem hf2
        cases t1 with
        | union ts1 =>
          obtain ⟨hm1f, hm1u⟩ := flat_union_mem hf1
          obtain ⟨⟨ts2N, rem⟩, hgo⟩ := ihGo ts2 ts1 (by simp at hm ⊢; omega) hm2f hm2u hm1f hm1u
          exact ⟨some (.union (ts2N ++ rem)), by simp [tryUnionWith, hgo]⟩
        | any =>
          obtain ⟨r, hnu⟩ := ihNU ts2 .any (by simp at hm ⊢; omega) hm2f hm2u Flat.any rfl
          exact ⟨some (.union r), by simp [tryUnionWith, hnu]⟩
        | never =>
          obtain ⟨r, hnu⟩ := ihNU ts2 .never (by simp at hm ⊢; omega) hm2f hm2u Flat.never rfl
          exact ⟨some (.union r), by simp [tryUnionWith, hnu]⟩
        | prim n1 =>
          obtain ⟨r, hnu⟩ := ihNU ts2 (.prim n1) (by simp at hm ⊢; omega) hm2f hm2u hf1 rfl
          exact ⟨some (.union r), by simp [tryUnionWith, hnu]⟩
        | obj l1 =>
          obtain ⟨r, hnu⟩ := ihNU ts2 (.obj l1) (by simp at hm ⊢; omega) hm2f hm2u hf1 rfl
          exact ⟨some (.union r), by simp [tryUnionWith, hnu]⟩
        | array e1 =>
          obtain ⟨r, hnu⟩ := ihNU ts2 (.array e1) (by simp at hm ⊢; omega) hm2f hm2u hf1 rfl
          exact ⟨some (.union r), by simp [tryUnionWith, hnu]⟩
      | prim n2 =>
        cases t1 with
        | any => exact ⟨some .any, by simp [tryUnionWith]⟩
        | never => exact ⟨some (.prim n2), by simp [tryUnionWith]⟩
        | prim n1 =>
          by_cases heq : n1 = n2
          · exact ⟨some (.prim n1), by simp [tryUnionWith, heq]⟩
          · exact ⟨none, by simp [tryUnionWith, heq]⟩
        | obj l1 => exact ⟨none, by simp [tryUnionWith]⟩
        | array e1 => exact ⟨none, by simp [tryUnionWith]⟩
        | union ts1 =>
          obtain ⟨hm1f, hm1u⟩ := flat_union_mem hf1
          obtain ⟨r, hnu⟩ := ihNU ts1 (.prim n2) (by simp at hm ⊢; omega) hm1f hm1u hf2 rfl
          exact ⟨some (.union r), by simp [tryUnionWith, hnu]⟩
      | obj l2 =>
        cases t1 with
        | any => exact ⟨some .any, by simp [tryUnionWith]⟩
        | never => exact ⟨some (.obj l2), by simp [tryUnionWith]⟩
        | prim n1 => exact ⟨none, by simp [tryUnionWith]⟩
        | obj l1 =>
          obtain ⟨l, hobj⟩ := ihObj l1 l2 (by simp at hm ⊢; omega) (flat_obj_mem hf1)
            (flat_obj_mem hf2)
          exact ⟨some (.obj l), by simp [tryUnionWith, hobj]⟩
        | array e1 => exact ⟨none, by simp [tryUnionWith]⟩
        | union ts1 =>
          obtain ⟨hm1f, hm1u⟩ := flat_union_mem hf1
          obtain ⟨r, hnu⟩ := ihNU ts1 (.obj l2) (by simp at hm ⊢; omega) hm1f hm1u hf2 rfl
          exact ⟨some (.union r), by simp [tryUnionWith, hnu]⟩
      | array e2 =>
        cases t1 with
        | any => exact ⟨some .any, by simp [tryUnionWith]⟩
        | never => exact ⟨some (.array e2), by simp [tryUnionWith]⟩
        | prim n1 => exact ⟨none, by simp [tryUnionWith]⟩
        | obj l1 => exact ⟨none, by simp [tryUnionWith]⟩
        | array e1 =>
          obtain ⟨e3, hu⟩ := ihUnion e1 e2 (by simp at hm ⊢; omega) (flat_array_elem hf1)
            (flat_array_elem hf2)
          exact ⟨some (.array e3), by simp [tryUnionWith, hu]⟩
        | union ts1 =>
          obtain ⟨hm1f, hm1u⟩ := flat_union_mem hf1
          obtain ⟨r, hnu⟩ := ihNU ts1 (.array e2) (by simp at hm ⊢; omega) hm1f hm1u hf2 rfl
          exact ⟨some (.union r), by simp [tryUnionWith, hnu]⟩
    refine ⟨hTry, ?_, ?_, ?_, ?_, ?_, ?_⟩
    · -- unionWith
      intro t1 t2 hm hf1 hf2
      obtain ⟨r, htry⟩ := hTry t1 t2 (by omega) hf1 hf2
      cases r with
      | none => exact ⟨.union [t1, t2], by simp [unionWith, htry]⟩
      | some t3 => exact ⟨t3, by simp [unionWith, htry]⟩
    · -- absorbNonUnionGo
      intro ts t2 hm hmf hmu hf2 hu2
      cases ts with
      | nil => exact ⟨false, by simp [absorbNonUnionGo]⟩
      | cons t rest =>
        have htu : t.isUnion = false := hmu t (by simp)
        obtain ⟨r, htry⟩ := hTry t t2 (by simp at hm ⊢; omega) (hmf t (by simp)) hf2
        cases r with
        | some t3 =>
          exact ⟨true, by simp [absorbNonUnionGo, htu, htry]⟩
        | none =>
          obtain ⟨b, hgo⟩ := ihGoNU rest t2 (by simp at hm ⊢; omega)
            (fun x hx => hmf x (by simp [hx])) (fun x hx => hmu x (by simp [hx])) hf2 hu2
          exact ⟨b, by simp [absorbNonUnionGo, htu, htry, hgo]⟩
    · -- absorbNonUnion
      intro ts t2 hm hmf hmu hf2 hu2
      obtain ⟨b, hgo⟩ := ihGoNU ts t2 (by omega) hmf hmu hf2 hu2
      cases b with
      | true => exact ⟨ts, by simp [absorbNonUnion, hu2, hgo]⟩
      | false => exact ⟨ts ++ [t2], by simp [absorbNonUnion, hu2, hgo]⟩
    · -- absorbUnionScan
      intro t1 os hm hf1 hu1 hmf hmu
      cases os with
      | nil => exact ⟨none, by simp [absorbUnionScan], by simp⟩
      | cons t2 rest =>
        have ht2u : t2.isUnion = false := hmu t2 (by simp)
        obtain ⟨r, htry⟩ := hTry t1 t2 (by simp at hm ⊢; omega) hf1 (hmf t2 (by simp))
        cases r with
        | some t1New =>
          refine ⟨some (t1New, ⟨rest, by simp⟩), by simp [absorbUnionScan, ht2u, htry], ?_⟩
          intro tN os2 hr x hx
          simp only [Option.some.injEq, Prod.mk.injEq] at hr
          obtain ⟨rfl, hos2⟩ := hr
          rw [← hos2] at hx
          simp at hx ⊢
          simp [hx]
        | none =>
          obtain ⟨r2, hscan, hsub⟩ := ihScan t1 rest (by simp at hm ⊢; omega) hf1 hu1
            (fun x hx => hmf x (by simp [hx])) (fun x hx => hmu x (by simp [hx]))
          cases r2 with
          | none =>
            exact ⟨none, by simp [absorbUnionScan, ht2u, htry, hscan], by simp⟩
          | some pr =>
            obtain ⟨t1New, os2⟩ := pr
            refine ⟨some (t1New, ⟨t2 :: os2.val, by
              have := os2.2
              simp at this ⊢
              omega⟩), by simp [absorbUnionScan, ht2u, htry, hscan], ?_⟩
            intro tN os3 hr x hx
            simp only [Option.some.injEq, Prod.mk.injEq] at hr
            obtain ⟨rfl, hos3⟩ := hr
            rw [← hos3] at hx
            simp at hx
            rcases hx with rfl | hx
            · simp
            · have := hsub t1New os2 rfl x hx
              simp [this]
    · -- absorbUnionGo
      intro ts os hm hmf hmu hof hou
      cases ts with
      | nil => exact ⟨([], os), by simp [absorbUnionGo]⟩
      | cons t1 rest =>
        have ht1u : t1.isUnion = false := hmu t1 (by simp)
        obtain ⟨r, hscan, hsub⟩ := ihScan t1 os (by simp at hm ⊢; omega) (hmf t1 (by simp))
          ht1u hof hou
        cases r with
        | none =>
          obtain ⟨r2, hgo⟩ := ihGo rest os (by simp at hm ⊢; omega)
            (fun x hx => hmf x (by simp [hx])) (fun x hx => hmu x (by simp [hx])) hof hou
          exact ⟨(t1 :: r2.1, r2.2), by simp [absorbUnionGo, ht1u, hscan, hgo]⟩
        | some pr =>
          obtain ⟨t1New, os2⟩ := pr
          have hsubs := hsub t1New os2 rfl
          obtain ⟨r2, hgo⟩ := ihGo rest os2.val (by
              have := os2.2
              have := jstype_sizeOf_pos t1
              simp at hm ⊢
              omega)
            (fun x hx => hmf x (by simp [hx])) (fun x hx => hmu x (by simp [hx]))
            (fun x hx => hof x (hsubs x hx)) (fun x hx => hou x (hsubs x hx))
          exact ⟨(t1New :: r2.1, r2.2), by simp [absorbUnionGo, ht1u, hscan, hgo]⟩
    · -- objectAbsorb
      intro l1 l2 hm hmf1 hmf2
      cases l1 with
      | nil => exact ⟨l2.map (fun q => (q.1, q.2.1, true)), by simp [objectAbsorb]⟩
      | cons p r1 =>
        obtain ⟨n1, ty1, o1⟩ := p
        cases l2 with
        | nil =>
          obtain ⟨rest, hr⟩ := ihObj r1 [] (by simp at hm ⊢; omega)
            (fun x hx => hmf1 x (by simp [hx])) (by simp)
          exact ⟨(n1, ty1, true) :: rest, by simp [objectAbsorb, hr]⟩
        | cons q r2 =>
          obtain ⟨n2, ty2, o2⟩ := q
          by_cases hlt : propNameLtB n2 n1 = true
          · obtain ⟨rest, hr⟩ := ihObj ((n1, ty1, o1) :: r1) r2 (by simp at hm ⊢; omega)
              hmf1 (fun x hx => hmf2 x (by simp [hx]))
            exact ⟨(n2, ty2, true) :: rest, by simp [objectAbsorb, hlt, hr]⟩
          · by_cases heq : n1 = n2
            · subst heq
              obtain ⟨ty, hu⟩ := ihUnion ty1 ty2 (by simp at hm ⊢; omega)
                (hmf1 (n1, ty1, o1) (by simp)) (hmf2 (n1, ty2, o2) (by simp))
              obtain ⟨rest, hr⟩ := ihObj r1 r2 (by simp at hm ⊢; omega)
                (fun x hx => hmf1 x (by simp [hx])) (fun x hx => hmf2 x (by simp [hx]))
              exact ⟨(n1, ty, o1 || o2) :: rest, by simp [objectAbsorb, hlt, hu, hr]⟩
            · obtain ⟨rest, hr⟩ := ihObj r1 ((n2, ty2, o2) :: r2) (by simp at hm ⊢; omega)
                (fun x hx => hmf1 x (by simp [hx])) hmf2
              exact ⟨(n1, ty1, true) :: rest, by simp [objectAbsorb, hlt, heq, hr]⟩

/-! ## C3: the union operations never raise on flat inputs -/

/-- C3 counterexample: `tryUnionWith` CAN raise for constructible inputs.
The nested union `(null | string) | boolean` passes the `UnionType`
constructor check (which only requires at least two members), and
absorbing `null` into it hits `assert not isinstance(t, UnionType)` in
`absorbNonUnion`. -/
theorem c3_counterexample :
    Constructible (.union [.union [.prim "null", .prim "string"], .prim "boolean"]) ∧
    Constructible (.prim "null") ∧
    tryUnionWith (.prim "null")
        (.union [.union [.prim "null", .prim "string"], .prim "boolean"])
      = .error "AssertionError: union member of a union" := by
  refine ⟨?_, Constructible.prim _ (by decide), ?_⟩
  · refine Constructible.union _ ?_ (by simp)
    intro t ht
    simp only [List.mem_cons, List.mem_singleton, List.not_mem_nil, or_false] at ht
    rcases ht with rfl | rfl
    · refine Constructible.union _ ?_ (by simp)
      intro t ht
      simp only [List.mem_cons, List.mem_singleton, List.not_mem_nil, or_false] at ht
      rcases ht with rfl | rfl
      · exact Constructible.prim _ (by decide)
      · exact Constructible.prim _ (by decide)
    · exact Constructible.prim _ (by decide)
  · simp [tryUnionWith, absorbNonUnion, absorbNonUnionGo]

/-- C3 (amended): for inputs whose unions are flat (no Union member is
itself a Union, recursively), `tryUnionWith` and `unionWith` never raise:
incompatibility is returned as the `None` sentinel by `tryUnionWith` and
consumed by `unionWith`, which then returns the 2-member Union of its two
arguments, so `unionWith` always returns a type value. -/
theorem c3_never_raises : ∀ t1 t2 : JSType, Flat t1 → Flat t2 →
    (∃ r, tryUnionWith t1 t2 = .ok r) ∧
    (∃ t, unionWith t1 t2 = .ok t) ∧
    (tryUnionWith t1 t2 = .ok none → unionWith t1 t2 = .ok (.union [t1, t2])) := by
  intro t1 t2 hf1 hf2
  obtain ⟨hTry, hUnion, _⟩ := mergeTotal (2 * (sizeOf t1 + sizeOf t2) + 1)
  refine ⟨hTry t1 t2 (by omega) hf1 hf2, hUnion t1 t2 (by omega) hf1 hf2, ?_⟩
  intro hnone
  simp [unionWith, hnone]

/-- C3 witness: the incompatible primitives `undefined` and `boolean`
produce the sentinel and degrade into a 2-member union. -/
theorem c3_witness :
    unionWith (.prim "undefined") (.prim "boolean")
      = .ok (.union [.prim "undefined", .prim "boolean"]) :=
  (c3_never_raises (.prim "undefined") (.prim "boolean") (Flat.prim _) (Flat.prim _)).2.2
    (by simp [tryUnionWith])

/-! ## C2: the object merge -/

/-- C2: for sorted property lists, `objectAbsorb` produces an object
whose property-name set is the union of the two inputs' property-name
sets; a property present in only one input is marked optional in the
result; a property present in both inputs has its type set to `unionWith`
of the two sides' types and is optional if and only if it was optional on
at least one side.  The merge succeeds whenever the property types are
flat (so the nested `unionWith` calls cannot raise). -/
theorem c2_object_merge : ∀ l1 l2 : List JSProp,
    SortedProps l1 → SortedProps l2 →
    ((∀ p ∈ l1, Flat p.2.1) → (∀ p ∈ l2, Flat p.2.1) →
      ∃ l, objectAbsorb l1 l2 = .ok l) ∧
    (∀ l, objectAbsorb l1 l2 = .ok l →
      (∀ nm : PropName, nm ∈ l.map (fun p => p.1) ↔
        (nm ∈ l1.map (fun p => p.1) ∨ nm ∈ l2.map (fun p => p.1))) ∧
      (∀ nm ty o, (nm, ty, o) ∈ l1 → nm ∉ l2.map (fun p => p.1) → (nm, ty, true) ∈ l) ∧
      (∀ nm ty o, (nm, ty, o) ∈ l2 → nm ∉ l1.map (fun p => p.1) → (nm, ty, true) ∈ l) ∧
      (∀ nm ty1 o1 ty2 o2, (nm, ty1, o1) ∈ l1 → (nm, ty2, o2) ∈ l2 →
        ∃ ty, unionWith ty1 ty2 = .ok ty ∧ (nm, ty, o1 || o2) ∈ l)) := by
  intro l1 l2 h1 h2
  constructor
  · intro hf1 hf2
    exact (mergeTotal (2 * (sizeOf l1 + sizeOf l2))).2.2.2.2.2.2 l1 l2 (le_refl _) hf1 hf2
  · intro l h
    refine ⟨objectAbsorb_names (l1.length + l2.length) l1 l2 l (le_refl _) h, ?_⟩
    exact objectAbsorb_find (l1.length + l2.length) l1 l2 l (le_refl _) h1 h2 h

/-- C2 witness: merging `{x: undefined}` with `{x: boolean}` produces the
shared property `x` with the union of the two types and the conjunction
of the optional flags. -/
theorem c2_witness :
    ∃ ty, unionWith (.prim "undefined") (.prim "boolean") = .ok ty ∧
      ((Sum.inl "x" : PropName), ty, false || false) ∈
        [((Sum.inl "x" : PropName), JSType.union [.prim "undefined", .prim "boolean"], false)] :=
  ((c2_object_merge [(.inl "x", .prim "undefined", false)] [(.inl "x", .prim "boolean", false)]
      (by simp [SortedProps]) (by simp [SortedProps])).2
    [(.inl "x", .union [.prim "undefined", .prim "boolean"], false)]
    (by simp [objectAbsorb, unionWith, tryUnionWith, propNameLtB, strLtB, charsLtB])).2.2.2
    (.inl "x") (.prim "undefined") false (.prim "boolean") false (by simp) (by simp)

/-! ## C9: the sortedness invariant of object property lists -/

/-- C9: every `ObjectType` accepted by the constructor check has a
property list strictly sorted by name (strings ordered before integers by
the fixed `__lt__` rule) with no duplicate names, and `objectAbsorb`
preserves the invariant: the merge of two sorted property lists is again
strictly sorted with no duplicate names. -/
theorem c9_sorted_invariant :
    (∀ props : List JSProp, Constructible (.obj props) →
      SortedProps props ∧ (props.map (fun p => p.1)).Nodup) ∧
    (∀ l1 l2 l : List JSProp, SortedProps l1 → SortedProps l2 →
      objectAbsorb l1 l2 = .ok l →
      SortedProps l ∧ (l.map (fun p => p.1)).Nodup) := by
  have hnodup : ∀ l : List JSProp, SortedProps l → (l.map (fun p => p.1)).Nodup := by
    intro l h
    rw [List.Nodup, List.pairwise_map]
    exact h.imp (fun hab => propNameLtB_ne hab)
  constructor
  · intro props hc
    have hchain : props.Chain' (fun p q => propLtB p q = true) := by
      cases hc with | obj _ _ h => exact h
    have hsorted : SortedProps props := by
      haveI : IsTrans JSProp (fun p q => propLtB p q = true) :=
        ⟨fun a b c hab hbc => propNameLtB_trans hab hbc⟩
      rw [SortedProps]
      rw [List.chain'_iff_pairwise] at hchain
      exact hchain
    exact ⟨hsorted, hnodup props hsorted⟩
  · intro l1 l2 l h1 h2 h
    have hsorted := objectAbsorb_sorted (l1.length + l2.length) l1 l2 l (le_refl _) h1 h2 h
    exact ⟨hsorted, hnodup l hsorted⟩

/-- C9 witness: merging the sorted singletons `{a: any}` and `{b: never}`
yields a sorted, duplicate-free result. -/
theorem c9_witness :
    SortedProps [((Sum.inl "a" : PropName), JSType.any, true),
      ((Sum.inl "b" : PropName), JSType.never, true)] ∧
    (([((Sum.inl "a" : PropName), JSType.any, true),
      ((Sum.inl "b" : PropName), JSType.never, true)] : List JSProp).map
        (fun p => p.1)).Nodup :=
  c9_sorted_invariant.2 [(.inl "a", .any, false)] [(.inl "b", .never, false)]
    [(.inl "a", .any, true), (.inl "b", .never, true)]
    (by simp [SortedProps]) (by simp [SortedProps])
    (by simp [objectAbsorb, propNameLtB, strLtB, charsLtB])
